import Mathlib

/-!
Verification of the buffer bookkeeping in `sample_cpp.cpp`
(`QuantumVulnerableCrypto`): RSA encryption, AES-128-CBC encryption and
ECDSA signing wrappers around an external cryptography library, plus the
driver routine `main`.

The library calls (`RSA_public_encrypt`, `RAND_bytes`, `AES_cbc_encrypt`,
`ECDSA_sign`) are modelled abstractly: each call's observable outcome (the
returned length and the bytes written into the caller's buffer) is a
parameter, and the wrapper code's own buffer arithmetic is embedded
faithfully.  Byte buffers (`std::vector<unsigned char>`, `std::string`) are
`List Nat`.
-/

namespace QVS

/-- `std::vector::resize (n)` on its normal path: keep the first `n`
elements, value-initialise (zero-fill) any elements past the old length.
The exception path (a request beyond `max_size()` throws instead of
producing a buffer) is modelled by `listResizeChecked` below; this total
version renders the buffer arithmetic where only the requested size itself
is at issue. -/
def listResize (l : List Nat) (n : Nat) : List Nat :=
  l.take n ++ List.replicate (n - l.length) 0

/-- Writing `src` into buffer `dst` starting at offset `off`
(`std::copy` / a library call filling part of the caller's buffer). -/
def listWrite (dst : List Nat) (off : Nat) (src : List Nat) : List Nat :=
  dst.take off ++ src ++ dst.drop (off + src.length)

/-- Conversion of a C `int` to `size_t` (as in `encrypted.resize(encryptedLength)`
where `encryptedLength` is an `int`): two's-complement reinterpretation
modulo `2 ^ 64`. -/
def cppIntToSizeT (i : Int) : Nat :=
  (i % (2 : Int) ^ 64).toNat

theorem listResize_length (l : List Nat) (n : Nat) : (listResize l n).length = n := by
  simp [listResize, List.length_take]
  omega

theorem listResize_of_le (l : List Nat) (n : Nat) (h : n ≤ l.length) :
    listResize l n = l.take n := by
  simp [listResize, Nat.sub_eq_zero_of_le h]

theorem listWrite_zero (dst src : List Nat) :
    listWrite dst 0 src = src ++ dst.drop src.length := by
  simp [listWrite]

/-! ## RSA -/

/-- An RSA key handle; the only attribute the sample observes is the modulus
size in bits (set by `RSA_generate_key_ex`). -/
structure RSAKey where
  bits : Nat
deriving DecidableEq

/-- `RSA_size`: the modulus size in bytes. -/
def RSA_size (rsa : RSAKey) : Nat := rsa.bits / 8

/-- `generateRSAKeys`: `RSA_generate_key_ex(rsa, 2048, bne, nullptr)` with
public exponent 65537 produces a 2048-bit key handle. -/
def generateRSAKeys : RSAKey := ⟨2048⟩

/-- Observable outcome of one `RSA_public_encrypt` call: the returned `int`
(`RSA_size(rsa)` on success, `-1` on failure) and the bytes the library wrote
into the output buffer. -/
structure RSAEncCall where
  ret : Int
  written : List Nat

/-- `encryptRSA`: allocate a buffer of `RSA_size(rsa)` bytes, let
`RSA_public_encrypt` write into it and return `encryptedLength`, then
`encrypted.resize(encryptedLength)` (the `int` is converted to `size_t`)
and return the buffer.  No check of `encryptedLength` is performed. -/
def encryptRSA (rsa : RSAKey) (call : RSAEncCall) (message : List Nat) : List Nat :=
  let encrypted := List.replicate (RSA_size rsa) 0
  let encrypted := listWrite encrypted 0 call.written
  let encryptedLength := call.ret
  listResize encrypted (cppIntToSizeT encryptedLength)

/-- `PTRDIFF_MAX` on a 64-bit platform: the largest byte count a single C++
object may occupy, hence an upper bound on `std::vector<unsigned char>::max_size()`. -/
def PTRDIFF_MAX : Nat := 2 ^ 63 - 1

/-- The exceptions `std::vector::resize` can raise: `std::length_error` when
the requested size exceeds `max_size()`, `std::bad_alloc` when the allocation
itself fails. -/
inductive CppException
  | length_error
  | bad_alloc
deriving DecidableEq

/-- `std::vector<unsigned char>::resize(n)` with its exception path: a
request beyond `max_size()` (bounded by `PTRDIFF_MAX`; no 64-bit process can
materialise such a buffer in any case) throws instead of producing a buffer;
otherwise the buffer is truncated or zero-extended to `n` elements. -/
def listResizeChecked (l : List Nat) (n : Nat) : Except CppException (List Nat) :=
  if PTRDIFF_MAX < n then .error .length_error
  else .ok (listResize l n)

/-- `encryptRSA` with the exception path of its final
`encrypted.resize(encryptedLength)` made explicit: `.ok` is a normal return
of the buffer; `.error` is an exception propagating to the caller (the
function contains no try/catch). -/
def encryptRSAExc (rsa : RSAKey) (call : RSAEncCall) (message : List Nat) :
    Except CppException (List Nat) :=
  let encrypted := List.replicate (RSA_size rsa) 0
  let encrypted := listWrite encrypted 0 call.written
  let encryptedLength := call.ret
  listResizeChecked encrypted (cppIntToSizeT encryptedLength)

/-! ## ECDSA -/

/-- An elliptic-curve key handle; the only attribute the sample observes is
`ECDSA_size(key)`, the maximum DER signature length for the key's curve. -/
structure ECKey where
  ecdsaSizeVal : Nat
deriving DecidableEq

/-- `ECDSA_size`: maximum signature length for the key. -/
def ECDSA_size (key : ECKey) : Nat := key.ecdsaSizeVal

/-- Observable outcome of one `ECDSA_sign` call: the value the library stores
into `sigLen` and the bytes it wrote into the signature buffer. -/
structure ECDSASignCall where
  retSigLen : Nat
  written : List Nat

/-- `signECC`: allocate `ECDSA_size(key)` bytes, let `ECDSA_sign` write the
signature and store its length into `sigLen`, then
`signature.resize(sigLen)` and return the buffer.  The return code of
`ECDSA_sign` is not inspected. -/
def signECC (key : ECKey) (call : ECDSASignCall) (data : List Nat) : List Nat :=
  let sigLen := ECDSA_size key
  let signature := List.replicate sigLen 0
  let signature := listWrite signature 0 call.written
  let sigLen := call.retSigLen
  listResize signature sigLen

/-! ## AES-128-CBC -/

/-- `AES_BLOCK_SIZE` from the library headers. -/
def AES_BLOCK_SIZE : Nat := 16

/-- `((message.length() / AES_BLOCK_SIZE) + 1) * AES_BLOCK_SIZE`, the padded
plaintext length computed by `encryptAES`. -/
def paddedLengthAES (l : Nat) : Nat :=
  (l / AES_BLOCK_SIZE + 1) * AES_BLOCK_SIZE

/-- Byte-wise xor of two equal-length buffers (the chaining step of CBC). -/
def xorBytes (a b : List Nat) : List Nat :=
  List.zipWith (fun x y => x ^^^ y) a b

/-- Split a byte buffer into consecutive `AES_BLOCK_SIZE`-byte blocks. -/
def toBlocks (l : List Nat) : List (List Nat) :=
  if h : l = [] then []
  else l.take AES_BLOCK_SIZE :: toBlocks (l.drop AES_BLOCK_SIZE)
termination_by l.length
decreasing_by
  simp only [List.length_drop]
  have hl : 0 < l.length := List.length_pos.mpr h
  simp [AES_BLOCK_SIZE]
  omega

/-- CBC encryption over a block list: each plaintext block is xor-ed with the
previous ciphertext block (initially the IV) and passed through the block
cipher `enc`. -/
def cbcEncryptBlocks (enc : List Nat → List Nat) : List Nat → List (List Nat) → List (List Nat)
  | _, [] => []
  | prev, b :: bs =>
    let c := enc (xorBytes prev b)
    c :: cbcEncryptBlocks enc c bs

/-- `AES_cbc_encrypt(in, out, length, key, ivec, AES_ENCRYPT)` on a
block-aligned buffer: CBC over the `AES_BLOCK_SIZE`-byte blocks of `input`,
flattened back to bytes.  `enc` is the keyed block cipher established by
`AES_set_encrypt_key`. -/
def aes_cbc_encrypt (enc : List Nat → List Nat) (input : List Nat) (ivec : List Nat) :
    List Nat :=
  (cbcEncryptBlocks enc ivec (toBlocks input)).flatten

/-- `generateAES128Key`: a 16-byte vector filled by `RAND_bytes`
(`randKey` is the library's random output). -/
def generateAES128Key (randKey : List Nat) : List Nat :=
  listWrite (List.replicate 16 0) 0 randKey

/-- `encryptAES`: create a random IV (`randIV` is the `RAND_bytes` output),
compute the padded length, allocate `iv.size() + paddedLength` output bytes,
copy the IV to the front, zero-pad the message to `paddedLength` bytes, and
CBC-encrypt the padded message into the output after the IV.  `cipher` is the
library's AES block cipher, keyed by `AES_set_encrypt_key key 128`. -/
def encryptAES (cipher : List Nat → List Nat → List Nat) (key : List Nat)
    (randIV : List Nat) (message : List Nat) : List Nat :=
  let iv := randIV
  let paddedLength := paddedLengthAES message.length
  let output := List.replicate (iv.length + paddedLength) 0
  let output := listWrite output 0 iv
  let paddedMessage := listWrite (List.replicate paddedLength 0) 0 message
  listWrite output iv.length (aes_cbc_encrypt (cipher key) paddedMessage iv)

/-- Modelled from the spec: AES-CBC decryption of an `encryptAES` output
("AES-decrypt with the same key and the IV recovered from the ciphertext's
prefix").  No decryption routine exists in the sample; this is its standard
inverse: the IV is the first `AES_BLOCK_SIZE` bytes, the body is CBC-decrypted
with the keyed inverse block cipher `cipherDec`. -/
def cbcDecryptBlocks (dec : List Nat → List Nat) : List Nat → List (List Nat) → List (List Nat)
  | _, [] => []
  | prev, c :: cs => xorBytes prev (dec c) :: cbcDecryptBlocks dec c cs

/-- Modelled from the spec: the whole-message AES-CBC decryption matching
`encryptAES`: recover the IV from the first `AES_BLOCK_SIZE` bytes and
CBC-decrypt the remaining bytes. -/
def decryptAES (cipherDec : List Nat → List Nat → List Nat) (key : List Nat)
    (output : List Nat) : List Nat :=
  let iv := output.take AES_BLOCK_SIZE
  let body := output.drop AES_BLOCK_SIZE
  (cbcDecryptBlocks (cipherDec key) iv (toBlocks body)).flatten

/-! ## The driver routine `main` -/

/-- The two library key handles allocated by `main`. -/
inductive CryptoHandle
  | rsaKey
  | eccKey
deriving DecidableEq

/-- A handle-relevant step of `main`: allocation (`generateRSAKeys` /
`generateECCKeys`), use (`encryptRSA` / `signECC`), release (`RSA_free` /
`EC_KEY_free`). -/
inductive MainEvent
  | alloc (h : CryptoHandle)
  | use (h : CryptoHandle)
  | free (h : CryptoHandle)
deriving DecidableEq

/-- The handle an event acts on. -/
def eventHandle : MainEvent → CryptoHandle
  | .alloc h => h
  | .use h => h
  | .free h => h

/-- The handle events of `main`, in source order: the RSA handle is created
and used, then the elliptic-curve handle is created and used, and both are
released at the end of the routine, on its single exit path. -/
def mainEvents : List MainEvent :=
  [.alloc .rsaKey, .use .rsaKey, .alloc .eccKey, .use .eccKey,
   .free .rsaKey, .free .eccKey]

/-! ## Block and buffer lemmas -/

theorem toBlocks_nil : toBlocks [] = [] := by
  rw [toBlocks]
  simp

theorem toBlocks_of_ne_nil (l : List Nat) (h : l ≠ []) :
    toBlocks l = l.take AES_BLOCK_SIZE :: toBlocks (l.drop AES_BLOCK_SIZE) := by
  rw [toBlocks]
  simp [h]

theorem flatten_toBlocks_aux :
    ∀ (n : Nat) (l : List Nat), l.length ≤ n → (toBlocks l).flatten = l := by
  intro n
  induction n with
  | zero =>
    intro l hl
    have hnil : l = [] := List.length_eq_zero.mp (Nat.le_zero.mp hl)
    subst hnil
    simp [toBlocks_nil]
  | succ n ih =>
    intro l hl
    by_cases h : l = []
    · subst h
      simp [toBlocks_nil]
    · rw [toBlocks_of_ne_nil l h, List.flatten_cons]
      have hpos : 0 < l.length := List.length_pos.mpr h
      have hdrop : (l.drop AES_BLOCK_SIZE).length ≤ n := by
        simp only [List.length_drop, AES_BLOCK_SIZE]
        omega
      rw [ih _ hdrop]
      exact List.take_append_drop _ l

theorem flatten_toBlocks (l : List Nat) : (toBlocks l).flatten = l :=
  flatten_toBlocks_aux l.length l (Nat.le_refl _)

theorem toBlocks_len16 :
    ∀ (n : Nat) (l : List Nat), l.length = AES_BLOCK_SIZE * n →
      (∀ b ∈ toBlocks l, b.length = AES_BLOCK_SIZE) ∧ (toBlocks l).length = n := by
  intro n
  induction n with
  | zero =>
    intro l hl
    have hnil : l = [] := List.length_eq_zero.mp (by simpa using hl)
    subst hnil
    simp [toBlocks_nil]
  | succ n ih =>
    intro l hl
    have hne : l ≠ [] := by
      intro h
      subst h
      simp [AES_BLOCK_SIZE] at hl
    rw [toBlocks_of_ne_nil l hne]
    have hdrop : (l.drop AES_BLOCK_SIZE).length = AES_BLOCK_SIZE * n := by
      simp only [List.length_drop]
      simp only [AES_BLOCK_SIZE] at hl ⊢
      omega
    obtain ⟨ih1, ih2⟩ := ih _ hdrop
    refine ⟨?_, by simp [ih2]⟩
    intro b hb
    rcases List.mem_cons.mp hb with hb | hb
    · subst hb
      simp only [List.length_take]
      simp only [AES_BLOCK_SIZE] at hl ⊢
      omega
    · exact ih1 b hb

theorem toBlocks_flatten :
    ∀ (bs : List (List Nat)), (∀ b ∈ bs, b.length = AES_BLOCK_SIZE) →
      toBlocks bs.flatten = bs := by
  intro bs
  induction bs with
  | nil =>
    intro _
    simp [toBlocks_nil]
  | cons b bs ih =>
    intro hb
    have hbl : b.length = AES_BLOCK_SIZE := hb b (by simp)
    have hne : (b :: bs).flatten ≠ [] := by
      rw [List.flatten_cons]
      intro h
      have := congrArg List.length h
      simp [hbl, AES_BLOCK_SIZE] at this
    rw [toBlocks_of_ne_nil _ hne, List.flatten_cons,
      List.take_left' hbl, List.drop_left' hbl,
      ih (fun x hx => hb x (by simp [hx]))]

theorem flatten_length_all16 (bs : List (List Nat))
    (h : ∀ b ∈ bs, b.length = AES_BLOCK_SIZE) :
    bs.flatten.length = AES_BLOCK_SIZE * bs.length := by
  induction bs with
  | nil => simp
  | cons b bs ih =>
    rw [List.flatten_cons, List.length_append, h b (by simp),
      ih (fun x hx => h x (by simp [hx]))]
    simp [List.length_cons, Nat.mul_succ, Nat.add_comm]

theorem xorBytes_length (a b : List Nat) :
    (xorBytes a b).length = min a.length b.length := by
  simp [xorBytes]

theorem xorBytes_xorBytes (a : List Nat) :
    ∀ b : List Nat, a.length = b.length → xorBytes a (xorBytes a b) = b := by
  induction a with
  | nil =>
    intro b hb
    have : b = [] := List.length_eq_zero.mp hb.symm
    subst this
    rfl
  | cons x xs ih =>
    intro b hb
    cases b with
    | nil => simp at hb
    | cons y ys =>
      simp only [xorBytes, List.zipWith_cons_cons]
      have hx : x ^^^ (x ^^^ y) = y := by
        simp [← Nat.xor_assoc]
      have hrest := ih ys (by simpa using hb)
      simp only [xorBytes] at hrest
      rw [hx, hrest]

theorem cbcEncryptBlocks_spec (enc : List Nat → List Nat)
    (henc : ∀ b, b.length = AES_BLOCK_SIZE → (enc b).length = AES_BLOCK_SIZE) :
    ∀ (bs : List (List Nat)) (prev : List Nat), prev.length = AES_BLOCK_SIZE →
      (∀ b ∈ bs, b.length = AES_BLOCK_SIZE) →
      (∀ c ∈ cbcEncryptBlocks enc prev bs, c.length = AES_BLOCK_SIZE) ∧
        (cbcEncryptBlocks enc prev bs).length = bs.length := by
  intro bs
  induction bs with
  | nil =>
    intro prev _ _
    simp [cbcEncryptBlocks]
  | cons b bs ih =>
    intro prev hprev hb
    have hxl : (xorBytes prev b).length = AES_BLOCK_SIZE := by
      rw [xorBytes_length, hprev, hb b (by simp)]
      simp
    have hcl : (enc (xorBytes prev b)).length = AES_BLOCK_SIZE := henc _ hxl
    obtain ⟨ih1, ih2⟩ := ih (enc (xorBytes prev b)) hcl (fun x hx => hb x (by simp [hx]))
    simp only [cbcEncryptBlocks]
    constructor
    · intro c hc
      rcases List.mem_cons.mp hc with hc | hc
      · subst hc
        exact hcl
      · exact ih1 c hc
    · simp [ih2]

theorem cbcDecrypt_cbcEncrypt (enc dec : List Nat → List Nat)
    (henc : ∀ b, b.length = AES_BLOCK_SIZE → (enc b).length = AES_BLOCK_SIZE)
    (hdec : ∀ b, b.length = AES_BLOCK_SIZE → dec (enc b) = b) :
    ∀ (bs : List (List Nat)) (prev : List Nat), prev.length = AES_BLOCK_SIZE →
      (∀ b ∈ bs, b.length = AES_BLOCK_SIZE) →
      cbcDecryptBlocks dec prev (cbcEncryptBlocks enc prev bs) = bs := by
  intro bs
  induction bs with
  | nil =>
    intro prev _ _
    simp [cbcEncryptBlocks, cbcDecryptBlocks]
  | cons b bs ih =>
    intro prev hprev hb
    have hbl : b.length = AES_BLOCK_SIZE := hb b (by simp)
    have hxl : (xorBytes prev b).length = AES_BLOCK_SIZE := by
      rw [xorBytes_length, hprev, hbl]
      simp
    have hcl : (enc (xorBytes prev b)).length = AES_BLOCK_SIZE := henc _ hxl
    simp only [cbcEncryptBlocks, cbcDecryptBlocks]
    rw [hdec _ hxl, xorBytes_xorBytes prev b (by rw [hprev, hbl]),
      ih (enc (xorBytes prev b)) hcl (fun x hx => hb x (by simp [hx]))]

theorem paddedLengthAES_lt (l : Nat) : l < paddedLengthAES l := by
  simp only [paddedLengthAES, AES_BLOCK_SIZE]
  omega

theorem paddedLengthAES_eq_mul (l : Nat) :
    paddedLengthAES l = AES_BLOCK_SIZE * (l / AES_BLOCK_SIZE + 1) := by
  simp only [paddedLengthAES, AES_BLOCK_SIZE]
  omega

/-- The zero-padded plaintext `encryptAES` builds:
`std::vector<unsigned char> paddedMessage(paddedLength, 0)` followed by
`std::copy(message.begin(), message.end(), paddedMessage.begin())`. -/
theorem paddedMessage_eq (message : List Nat) :
    listWrite (List.replicate (paddedLengthAES message.length) 0) 0 message =
      message ++ List.replicate (paddedLengthAES message.length - message.length) 0 := by
  rw [listWrite_zero, List.drop_replicate]

/-- Structure of the `encryptAES` output buffer: the IV followed by the CBC
encryption of the zero-padded message, the latter of the padded length. -/
theorem encryptAES_eq (cipher : List Nat → List Nat → List Nat)
    (key randIV message : List Nat)
    (hiv : randIV.length = AES_BLOCK_SIZE)
    (hcipher : ∀ b, b.length = AES_BLOCK_SIZE → (cipher key b).length = AES_BLOCK_SIZE) :
    encryptAES cipher key randIV message =
      randIV ++ aes_cbc_encrypt (cipher key)
        (message ++ List.replicate (paddedLengthAES message.length - message.length) 0)
        randIV ∧
    (aes_cbc_encrypt (cipher key)
        (message ++ List.replicate (paddedLengthAES message.length - message.length) 0)
        randIV).length = paddedLengthAES message.length := by
  have hlt : message.length < paddedLengthAES message.length := paddedLengthAES_lt _
  have hplen :
      (message ++ List.replicate (paddedLengthAES message.length - message.length) 0).length
        = AES_BLOCK_SIZE * (message.length / AES_BLOCK_SIZE + 1) := by
    rw [List.length_append, List.length_replicate, ← paddedLengthAES_eq_mul]
    omega
  obtain ⟨hblocks16, hblockcount⟩ := toBlocks_len16 _ _ hplen
  obtain ⟨hct16, hctcount⟩ :=
    cbcEncryptBlocks_spec (cipher key) hcipher _ randIV hiv hblocks16
  have hctlen :
      (aes_cbc_encrypt (cipher key)
        (message ++ List.replicate (paddedLengthAES message.length - message.length) 0)
        randIV).length = paddedLengthAES message.length := by
    rw [aes_cbc_encrypt, flatten_length_all16 _ hct16, hctcount, hblockcount,
      ← paddedLengthAES_eq_mul]
  refine ⟨?_, hctlen⟩
  simp only [encryptAES]
  rw [paddedMessage_eq]
  rw [listWrite_zero (List.replicate (randIV.length + paddedLengthAES message.length) 0) randIV,
    List.drop_replicate]
  rw [listWrite]
  rw [List.take_left' (by simp [hiv] : (randIV : List Nat).length = randIV.length)]
  have hdropall :
      ((randIV ++ List.replicate
          (randIV.length + paddedLengthAES message.length - randIV.length) 0).drop
        (randIV.length +
          (aes_cbc_encrypt (cipher key)
            (message ++ List.replicate (paddedLengthAES message.length - message.length) 0)
            randIV).length)) = [] := by
    apply List.drop_eq_nil_of_le
    rw [List.length_append, List.length_replicate, hctlen]
    omega
  rw [hctlen] at hdropall ⊢
  rw [hdropall, List.append_nil]

theorem listWrite_zero_length (dst src : List Nat) :
    (listWrite dst 0 src).length = src.length + (dst.length - src.length) := by
  rw [listWrite_zero, List.length_append, List.length_drop]

/-! ## Claims -/

/-- C1: For every message, `encryptAES` returns a buffer of length
`AES_BLOCK_SIZE + ((message.length / AES_BLOCK_SIZE) + 1) * AES_BLOCK_SIZE`
whose first `AES_BLOCK_SIZE` (16) bytes are the freshly generated random
initialization vector and whose remaining bytes are the AES-128-CBC
encryption, under that IV, of the message zero-padded to the padded length.
The hypotheses state the library contract: `RAND_bytes` fills exactly
`AES_BLOCK_SIZE` IV bytes, and the keyed AES block cipher maps 16-byte
blocks to 16-byte blocks. -/
theorem C1_encryptAES_output_structure (cipher : List Nat → List Nat → List Nat)
    (key randIV message : List Nat)
    (hiv : randIV.length = AES_BLOCK_SIZE)
    (hcipher : ∀ b, b.length = AES_BLOCK_SIZE → (cipher key b).length = AES_BLOCK_SIZE) :
    (encryptAES cipher key randIV message).length =
      AES_BLOCK_SIZE + (message.length / AES_BLOCK_SIZE + 1) * AES_BLOCK_SIZE ∧
    (encryptAES cipher key randIV message).take AES_BLOCK_SIZE = randIV ∧
    (encryptAES cipher key randIV message).drop AES_BLOCK_SIZE =
      aes_cbc_encrypt (cipher key)
        (message ++ List.replicate (paddedLengthAES message.length - message.length) 0)
        randIV := by
  obtain ⟨heq, hlen⟩ := encryptAES_eq cipher key randIV message hiv hcipher
  refine ⟨?_, ?_, ?_⟩
  · rw [heq, List.length_append, hiv, hlen, paddedLengthAES]
  · rw [heq]
    exact List.take_left' hiv
  · rw [heq]
    exact List.drop_left' hiv

theorem C1_encryptAES_output_structure_witness :
    (encryptAES (fun _ b => b) [] (List.replicate 16 0) [1, 2, 3]).take AES_BLOCK_SIZE =
      List.replicate 16 0 :=
  (C1_encryptAES_output_structure (fun _ b => b) [] (List.replicate 16 0) [1, 2, 3]
    (by decide) (fun _ hb => hb)).2.1

/-- C2: if public-key encryption fails (the library returns the sentinel
length `-1`), `encryptRSA` signals that failure to its caller rather than
returning an ordinary ciphertext buffer: the sentinel, converted to
`size_t`, is `2 ^ 64 - 1`, beyond `max_size()`, so the final `resize` throws
and the exception propagates out of the (handler-free) function — no buffer
is ever returned. -/
theorem C2_encryptRSA_failure_signalled (rsa : RSAKey) (call : RSAEncCall)
    (message : List Nat) (h : call.ret = -1) :
    encryptRSAExc rsa call message = .error CppException.length_error ∧
    ∀ buf : List Nat, encryptRSAExc rsa call message ≠ .ok buf := by
  have hgt : PTRDIFF_MAX < cppIntToSizeT call.ret := by
    rw [h]
    decide
  have herr : encryptRSAExc rsa call message = .error CppException.length_error := by
    simp only [encryptRSAExc, listResizeChecked]
    rw [if_pos hgt]
  exact ⟨herr, fun buf hb => Except.noConfusion (herr ▸ hb)⟩

theorem C2_encryptRSA_failure_signalled_witness :
    encryptRSAExc generateRSAKeys ⟨-1, []⟩ [] = .error CppException.length_error ∧
    ∀ buf : List Nat, encryptRSAExc generateRSAKeys ⟨-1, []⟩ [] ≠ .ok buf :=
  C2_encryptRSA_failure_signalled generateRSAKeys ⟨-1, []⟩ [] rfl

/-- C3: no library return code is inspected: for every outcome of
`RSA_public_encrypt` (including failures) `encryptRSA`'s buffer is resized
to the raw return value converted to `size_t`, and for every outcome of
`ECDSA_sign` `signECC`'s buffer is resized to the reported `sigLen`;
in particular the failure sentinel `-1` becomes the buffer size
`2 ^ 64 - 1`. -/
theorem C3_no_return_code_checked (rsa : RSAKey) (call : RSAEncCall) (message : List Nat)
    (key : ECKey) (scall : ECDSASignCall) (data : List Nat) :
    (encryptRSA rsa call message).length = cppIntToSizeT call.ret ∧
    (signECC key scall data).length = scall.retSigLen ∧
    cppIntToSizeT (-1) = 2 ^ 64 - 1 := by
  refine ⟨?_, ?_, by decide⟩
  · simp only [encryptRSA]
    rw [listResize_length]
  · simp only [signECC]
    rw [listResize_length]

/-- C4: when `RSA_public_encrypt` succeeds it returns `RSA_size(rsa)`, and
then the ciphertext returned by `encryptRSA` has length exactly
`RSA_size(rsa)` — 256 bytes for the 2048-bit key of `generateRSAKeys`. -/
theorem C4_encryptRSA_success_length (rsa : RSAKey) (call : RSAEncCall) (message : List Nat)
    (hret : call.ret = (RSA_size rsa : Int)) (hsz : RSA_size rsa < 2 ^ 64) :
    (encryptRSA rsa call message).length = RSA_size rsa ∧
    RSA_size generateRSAKeys = 256 := by
  refine ⟨?_, rfl⟩
  simp only [encryptRSA]
  rw [listResize_length, hret, cppIntToSizeT]
  have h0 : (0 : Int) ≤ (RSA_size rsa : Int) := Int.natCast_nonneg _
  have h1 : ((RSA_size rsa : Nat) : Int) < (2 : Int) ^ 64 := by exact_mod_cast hsz
  rw [Int.emod_eq_of_lt h0 h1, Int.toNat_natCast]

theorem C4_encryptRSA_success_length_witness :
    (encryptRSA generateRSAKeys ⟨(256 : Int), List.replicate 256 7⟩ [1]).length =
      RSA_size generateRSAKeys :=
  (C4_encryptRSA_success_length generateRSAKeys ⟨(256 : Int), List.replicate 256 7⟩ [1]
    (by decide) (by decide)).1

/-- C5: the returned buffer's final length equals the length the library
reported: `encryptRSA`'s ciphertext has the length returned by
`RSA_public_encrypt` (when that is a valid length), and `signECC`'s
signature has the length `ECDSA_sign` stored into `sigLen`. -/
theorem C5_buffer_length_matches_reported (rsa : RSAKey) (call : RSAEncCall)
    (message : List Nat) (key : ECKey) (scall : ECDSASignCall) (data : List Nat)
    (h0 : 0 ≤ call.ret) (h1 : call.ret < (2 : Int) ^ 64) :
    (encryptRSA rsa call message).length = call.ret.toNat ∧
    (signECC key scall data).length = scall.retSigLen := by
  constructor
  · simp only [encryptRSA]
    rw [listResize_length, cppIntToSizeT, Int.emod_eq_of_lt h0 h1]
  · simp only [signECC]
    rw [listResize_length]

theorem C5_buffer_length_matches_reported_witness :
    (encryptRSA generateRSAKeys ⟨(256 : Int), []⟩ []).length = (256 : Int).toNat ∧
    (signECC ⟨72⟩ ⟨70, List.replicate 70 1⟩ []).length = 70 :=
  C5_buffer_length_matches_reported generateRSAKeys ⟨(256 : Int), []⟩ []
    ⟨72⟩ ⟨70, List.replicate 70 1⟩ [] (by decide) (by decide)

/-- C6: AES-CBC decryption with the same key and the IV recovered from the
first `AES_BLOCK_SIZE` bytes of the `encryptAES` output recovers the
original message modulo zero-padding: the decrypted plaintext is the message
followed only by zero bytes.  The hypotheses state the library contract:
`RAND_bytes` fills 16 IV bytes, the keyed block cipher maps 16-byte blocks
to 16-byte blocks, and the decryption direction inverts it. -/
theorem C6_decrypt_recovers_message (cipher cipherDec : List Nat → List Nat → List Nat)
    (key randIV message : List Nat)
    (hiv : randIV.length = AES_BLOCK_SIZE)
    (hcipher : ∀ b, b.length = AES_BLOCK_SIZE → (cipher key b).length = AES_BLOCK_SIZE)
    (hinv : ∀ b, b.length = AES_BLOCK_SIZE → cipherDec key (cipher key b) = b) :
    decryptAES cipherDec key (encryptAES cipher key randIV message) =
      message ++ List.replicate (paddedLengthAES message.length - message.length) 0 := by
  obtain ⟨heq, _⟩ := encryptAES_eq cipher key randIV message hiv hcipher
  have hplen :
      (message ++ List.replicate (paddedLengthAES message.length - message.length) 0).length
        = AES_BLOCK_SIZE * (message.length / AES_BLOCK_SIZE + 1) := by
    rw [List.length_append, List.length_replicate, ← paddedLengthAES_eq_mul]
    have := paddedLengthAES_lt message.length
    omega
  obtain ⟨hb16, _⟩ := toBlocks_len16 _ _ hplen
  obtain ⟨hct16, _⟩ := cbcEncryptBlocks_spec (cipher key) hcipher _ randIV hiv hb16
  rw [heq]
  simp only [decryptAES]
  rw [List.take_left' hiv, List.drop_left' hiv, aes_cbc_encrypt,
    toBlocks_flatten _ hct16,
    cbcDecrypt_cbcEncrypt (cipher key) (cipherDec key) hcipher hinv _ randIV hiv hb16,
    flatten_toBlocks]

theorem C6_decrypt_recovers_message_witness :
    decryptAES (fun _ b => b) [] (encryptAES (fun _ b => b) [] (List.replicate 16 0) [9, 9]) =
      [9, 9] ++
        List.replicate
          (paddedLengthAES ([9, 9] : List Nat).length - ([9, 9] : List Nat).length) 0 :=
  C6_decrypt_recovers_message (fun _ b => b) (fun _ b => b) [] (List.replicate 16 0) [9, 9]
    (by decide) (fun _ hb => hb) (fun _ _ => rfl)

/-- C7: in the driver routine, each key handle is created immediately before
its use and released exactly once at the end of the routine on its single
exit path: each handle's event subsequence is exactly
`alloc, use, free`, each handle is freed exactly once, and the final two
events of `main` are the two releases. -/
theorem C7_handle_lifecycle :
    ∀ h : CryptoHandle,
      mainEvents.filter (fun e => eventHandle e == h) =
        [MainEvent.alloc h, MainEvent.use h, MainEvent.free h] ∧
      mainEvents.count (MainEvent.alloc h) = 1 ∧
      mainEvents.count (MainEvent.free h) = 1 ∧
      mainEvents.drop 4 =
        [MainEvent.free CryptoHandle.rsaKey, MainEvent.free CryptoHandle.eccKey] := by
  intro h
  cases h <;> exact ⟨rfl, rfl, rfl, rfl⟩

/-- C8: `encryptAES` appends at least one and at most `AES_BLOCK_SIZE` (16)
zero padding bytes: the padded message is the message followed by
`paddedLengthAES len - len` zeros, with `1 ≤ paddedLengthAES len - len ≤ 16`,
and when the message length is an exact multiple of the block size a full
extra all-zero block is appended. -/
theorem C8_padding_bounds (message : List Nat) :
    listWrite (List.replicate (paddedLengthAES message.length) 0) 0 message =
      message ++ List.replicate (paddedLengthAES message.length - message.length) 0 ∧
    1 ≤ paddedLengthAES message.length - message.length ∧
    paddedLengthAES message.length - message.length ≤ AES_BLOCK_SIZE ∧
    (message.length % AES_BLOCK_SIZE = 0 →
      paddedLengthAES message.length - message.length = AES_BLOCK_SIZE) := by
  refine ⟨paddedMessage_eq message, ?_⟩
  simp only [paddedLengthAES, AES_BLOCK_SIZE]
  omega

theorem C8_padding_bounds_witness :
    paddedLengthAES (List.replicate 16 3).length - (List.replicate 16 3).length =
      AES_BLOCK_SIZE :=
  (C8_padding_bounds (List.replicate 16 3)).2.2.2 (by decide)

/-- C9: the length of the `encryptAES` output depends only on the length of
the message: for any two messages of equal length, any keys (block ciphers
satisfying the AES contract) and any 16-byte random IVs, the two outputs
have the same length `AES_BLOCK_SIZE + ((len / AES_BLOCK_SIZE) + 1) *
AES_BLOCK_SIZE`. -/
theorem C9_length_depends_only_on_length
    (cipher1 cipher2 : List Nat → List Nat → List Nat) (key1 key2 : List Nat)
    (randIV1 randIV2 m1 m2 : List Nat)
    (hiv1 : randIV1.length = AES_BLOCK_SIZE) (hiv2 : randIV2.length = AES_BLOCK_SIZE)
    (hc1 : ∀ b, b.length = AES_BLOCK_SIZE → (cipher1 key1 b).length = AES_BLOCK_SIZE)
    (hc2 : ∀ b, b.length = AES_BLOCK_SIZE → (cipher2 key2 b).length = AES_BLOCK_SIZE)
    (hlen : m1.length = m2.length) :
    (encryptAES cipher1 key1 randIV1 m1).length =
      (encryptAES cipher2 key2 randIV2 m2).length ∧
    (encryptAES cipher1 key1 randIV1 m1).length =
      AES_BLOCK_SIZE + (m1.length / AES_BLOCK_SIZE + 1) * AES_BLOCK_SIZE := by
  obtain ⟨heq1, hlen1⟩ := encryptAES_eq cipher1 key1 randIV1 m1 hiv1 hc1
  obtain ⟨heq2, hlen2⟩ := encryptAES_eq cipher2 key2 randIV2 m2 hiv2 hc2
  have e1 : (encryptAES cipher1 key1 randIV1 m1).length =
      AES_BLOCK_SIZE + paddedLengthAES m1.length := by
    rw [heq1, List.length_append, hiv1, hlen1]
  have e2 : (encryptAES cipher2 key2 randIV2 m2).length =
      AES_BLOCK_SIZE + paddedLengthAES m2.length := by
    rw [heq2, List.length_append, hiv2, hlen2]
  constructor
  · rw [e1, e2, hlen]
  · rw [e1, paddedLengthAES]

theorem C9_length_depends_only_on_length_witness :
    (encryptAES (fun _ b => b) [] (List.replicate 16 0) [1, 2, 3]).length =
      (encryptAES (fun _ b => b) [7] (List.replicate 16 9) [4, 5, 6]).length :=
  (C9_length_depends_only_on_length (fun _ b => b) (fun _ b => b) [] [7]
    (List.replicate 16 0) (List.replicate 16 9) [1, 2, 3] [4, 5, 6]
    (by decide) (by decide) (fun _ hb => hb) (fun _ hb => hb) rfl).1

/-- C10: under the `ECDSA_sign` contract (the reported length is at most
`ECDSA_size(key)`, the allocated buffer's size), the signature returned by
`signECC` is the allocated buffer only shrunk (a `take`), its length is the
reported `sigLen`, and so is at most `ECDSA_size(key)`. -/
theorem C10_signature_at_most_ecdsa_max (key : ECKey) (call : ECDSASignCall)
    (data : List Nat) (h : call.retSigLen ≤ ECDSA_size key) :
    signECC key call data =
      (listWrite (List.replicate (ECDSA_size key) 0) 0 call.written).take call.retSigLen ∧
    (signECC key call data).length = call.retSigLen ∧
    (signECC key call data).length ≤ ECDSA_size key := by
  have hlen : (signECC key call data).length = call.retSigLen := by
    simp only [signECC]
    rw [listResize_length]
  refine ⟨?_, hlen, by rw [hlen]; exact h⟩
  simp only [signECC]
  apply listResize_of_le
  rw [listWrite_zero_length, List.length_replicate]
  omega

theorem C10_signature_at_most_ecdsa_max_witness :
    (signECC ⟨72⟩ ⟨70, List.replicate 72 5⟩ []).length ≤ ECDSA_size ⟨72⟩ :=
  (C10_signature_at_most_ecdsa_max ⟨72⟩ ⟨70, List.replicate 72 5⟩ [] (by decide)).2.2

end QVS
